import Mathlib

/-!
# Verification of `menu_sam/invert_colors.py`

Shallow embedding of the color-inversion script.  The script applies an
ordered list of twelve `re.sub` rules to the whole document.  Every pattern
in the list is one of three simple shapes:

* a plain literal (e.g. `border-white`);
* a literal followed by a negative lookahead `(?!/)` (e.g. `bg-black(?!/)`),
  which matches the literal only when the next character is not `/`
  (end of input counts as "not `/`");
* a literal followed by `/(\d+)` (e.g. `bg-white/(\d+)`), which matches the
  literal, then `/`, then a maximal nonempty run of digits, and whose
  replacement re-emits the captured digits.

`re.sub` performs a single left-to-right pass: at each position it tries the
pattern; on a match it emits the replacement and resumes after the matched
text; otherwise it copies one character and moves on.  That is exactly the
`subAux` function below.  Digits are modelled by `Char.isDigit`; the claims
only ever quantify over ASCII digit strings.
-/

/-- The three pattern shapes occurring in the script's rule list. -/
inductive PatKind where
  | plain
  | noSlash
  | slashDigits
deriving DecidableEq

/-- One `(pattern, replacement)` pair of the script.  The pattern's literal
part is stored as a head character plus tail (all the script's literals are
nonempty), so that a match always consumes at least one character.  For a
`slashDigits` rule, `repl` is the part of the replacement before the
re-emitted digits (e.g. `bg-white/` for `BG_BLACK_TEMP/(\d+) -> bg-white/\1`). -/
structure Rule where
  patHead : Char
  patTail : List Char
  kind : PatKind
  repl : List Char
deriving DecidableEq

/-- Build a rule from literal strings.  Every pattern literal in the script
is nonempty, so the first branch is never taken for the rules below. -/
def mkRule (k : PatKind) (p r : String) : Rule :=
  match p.toList with
  | [] => { patHead := ' ', patTail := [], kind := k, repl := r.toList }
  | c :: cs => { patHead := c, patTail := cs, kind := k, repl := r.toList }

/-- Attempted match of rule `r` at the current position, whose first
character is `c` and remaining text is `rest`.  On success, returns the
number of characters of `rest` consumed beyond `c`, and the emitted
replacement. -/
def matchLen (r : Rule) (c : Char) (rest : List Char) : Option (Nat × List Char) :=
  if c == r.patHead && r.patTail.isPrefixOf rest then
    match r.kind with
    | .plain => some (r.patTail.length, r.repl)
    | .noSlash =>
      match (rest.drop r.patTail.length).head? with
      | some '/' => none
      | _ => some (r.patTail.length, r.repl)
    | .slashDigits =>
      match rest.drop r.patTail.length with
      | '/' :: ds =>
        if ds.takeWhile Char.isDigit = [] then none
        else some (r.patTail.length + 1 + (ds.takeWhile Char.isDigit).length,
                   r.repl ++ ds.takeWhile Char.isDigit)
      | _ => none
  else none

/-- One left-to-right `re.sub` pass, fuelled (the fuel only needs to cover
the length of the text; a match always consumes at least one character). -/
def subAuxF (r : Rule) : Nat → List Char → List Char
  | _, [] => []
  | 0, s => s
  | fuel + 1, c :: rest =>
    match matchLen r c rest with
    | some (k, out) => out ++ subAuxF r fuel (rest.drop k)
    | none => c :: subAuxF r fuel rest

/-- Global replace-all of a single rule over the text: `re.sub(pattern,
replacement, content)`. -/
def subAux (r : Rule) (s : List Char) : List Char :=
  subAuxF r s.length s

/-- The script's ordered rule list (`replacements` in the source). -/
def rule1 : Rule := mkRule .noSlash "bg-black" "BG_BLACK_TEMP"
/-- `text-white(?!/) -> TEXT_WHITE_TEMP`. -/
def rule2 : Rule := mkRule .noSlash "text-white" "TEXT_WHITE_TEMP"
/-- `border-white -> border-black`. -/
def rule3 : Rule := mkRule .plain "border-white" "border-black"
/-- `hover:bg-white -> hover:bg-black`. -/
def rule4 : Rule := mkRule .plain "hover:bg-white" "hover:bg-black"
/-- `hover:text-white -> hover:text-black`. -/
def rule5 : Rule := mkRule .plain "hover:text-white" "hover:text-black"
/-- `BG_BLACK_TEMP/(\d+) -> bg-white/\1`. -/
def rule6 : Rule := mkRule .slashDigits "BG_BLACK_TEMP" "bg-white/"
/-- `BG_BLACK_TEMP(?!/) -> bg-white`. -/
def rule7 : Rule := mkRule .noSlash "BG_BLACK_TEMP" "bg-white"
/-- `TEXT_WHITE_TEMP/(\d+) -> text-black/\1`. -/
def rule8 : Rule := mkRule .slashDigits "TEXT_WHITE_TEMP" "text-black/"
/-- `TEXT_WHITE_TEMP(?!/) -> text-black`. -/
def rule9 : Rule := mkRule .noSlash "TEXT_WHITE_TEMP" "text-black"
/-- `bg-white/(\d+) -> bg-black/\1`. -/
def rule10 : Rule := mkRule .slashDigits "bg-white" "bg-black/"
/-- `bg-sam-red text-white -> bg-sam-red text-black`. -/
def rule11 : Rule := mkRule .plain "bg-sam-red text-white" "bg-sam-red text-black"
/-- `text-white hover:text-white -> text-black hover:text-black`. -/
def rule12 : Rule := mkRule .plain "text-white hover:text-white" "text-black hover:text-black"

/-- The ordered rule list of the script. -/
def replacements : List Rule :=
  [rule1, rule2, rule3, rule4, rule5, rule6,
   rule7, rule8, rule9, rule10, rule11, rule12]

/-- Sequential application of a rule list, each rule a global replace over
the current text (the `for pattern, replacement in replacements` loop). -/
def runRules (rs : List Rule) (s : List Char) : List Char :=
  rs.foldl (fun t r => subAux r t) s

/-- The text state after only the first `n` rules have run. -/
def runFirst (n : Nat) (s : List Char) : List Char :=
  runRules (replacements.take n) s

/-- `invert_colors(content)`: the whole pipeline on a document. -/
def invert_colors (content : String) : String :=
  String.mk (runRules replacements content.toList)

/-! ## Basic properties of the scanner -/

lemma subAuxF_congr (r : Rule) :
    ∀ (f g : Nat) (s : List Char), s.length ≤ f → s.length ≤ g →
      subAuxF r f s = subAuxF r g s := by
  intro f
  induction f with
  | zero =>
    intro g s hf _
    cases s with
    | nil => cases g <;> rfl
    | cons c rest => simp at hf
  | succ f ih =>
    intro g s hf hg
    cases s with
    | nil => cases g <;> rfl
    | cons c rest =>
      cases g with
      | zero => simp at hg
      | succ g =>
        have hf' : rest.length ≤ f := by simp at hf; omega
        have hg' : rest.length ≤ g := by simp at hg; omega
        cases hm : matchLen r c rest with
        | none =>
          simp only [subAuxF, hm]
          rw [ih g rest hf' hg']
        | some p =>
          obtain ⟨k, out⟩ := p
          have hd : (rest.drop k).length ≤ rest.length := by
            simp [List.length_drop]
          simp only [subAuxF, hm]
          rw [ih g (rest.drop k) (le_trans hd hf') (le_trans hd hg')]

lemma subAux_nil (r : Rule) : subAux r [] = [] := rfl

lemma subAux_cons_none {r : Rule} {c : Char} {rest : List Char}
    (h : matchLen r c rest = none) :
    subAux r (c :: rest) = c :: subAux r rest := by
  simp only [subAux, List.length_cons, subAuxF, h]

lemma subAux_cons_some {r : Rule} {c : Char} {rest : List Char} {k : Nat} {out : List Char}
    (h : matchLen r c rest = some (k, out)) :
    subAux r (c :: rest) = out ++ subAux r (rest.drop k) := by
  simp only [subAux, List.length_cons, subAuxF, h]
  congr 1
  exact subAuxF_congr r rest.length (rest.drop k).length (rest.drop k)
    (by simp [List.length_drop]) le_rfl

lemma matchLen_ne_head {r : Rule} {c : Char} (h : (c == r.patHead) = false)
    (rest : List Char) : matchLen r c rest = none := by
  simp [matchLen, h]

lemma ne_of_digit_of_not_digit {c d : Char} (hc : c.isDigit = true)
    (hd : d.isDigit = false) : c ≠ d := by
  intro h
  rw [h] at hc
  rw [hc] at hd
  exact Bool.noConfusion hd

lemma subAux_digits (r : Rule) (h : r.patHead.isDigit = false) :
    ∀ (N : List Char), (∀ d ∈ N, d.isDigit = true) → subAux r N = N := by
  intro N
  induction N with
  | nil => intro _; rfl
  | cons c rest ih =>
    intro hN
    have hc : c.isDigit = true := hN c (List.mem_cons_self c rest)
    have hne : (c == r.patHead) = false :=
      beq_eq_false_iff_ne.mpr (ne_of_digit_of_not_digit hc h)
    rw [subAux_cons_none (matchLen_ne_head hne rest),
        ih (fun d hd => hN d (List.mem_cons_of_mem c hd))]

/-! ## List prefix facts (over `Char` with its lawful `BEq`) -/

lemma isPrefixOf_append_of_le (p : List Char) :
    ∀ (a b : List Char), p.length ≤ a.length →
      p.isPrefixOf (a ++ b) = p.isPrefixOf a := by
  induction p with
  | nil => intro a b _; simp [List.isPrefixOf]
  | cons c p ih =>
    intro a b h
    cases a with
    | nil => simp at h
    | cons d a =>
      simp only [List.cons_append, List.isPrefixOf, List.append_eq]
      rw [ih a b (by simp at h; omega)]

lemma isPrefixOf_self_append (p b : List Char) : p.isPrefixOf (p ++ b) = true := by
  induction p with
  | nil => simp [List.isPrefixOf]
  | cons c p ih => simp [List.isPrefixOf, ih]

lemma isPrefixOf_append_of_gt (p : List Char) :
    ∀ (a b : List Char), a.length < p.length →
      p.isPrefixOf (a ++ b) =
        (a.isPrefixOf p && (p.drop a.length).isPrefixOf b) := by
  induction p with
  | nil => intro a b h; simp at h
  | cons c p ih =>
    intro a b h
    cases a with
    | nil => simp [List.isPrefixOf]
    | cons d a =>
      simp only [List.cons_append, List.isPrefixOf, List.length_cons,
        List.drop_succ_cons, List.append_eq]
      rw [ih a b (by simp at h; omega)]
      by_cases hcd : c = d
      · subst hcd
        simp [Bool.and_assoc]
      · rw [beq_eq_false_iff_ne.mpr hcd, beq_eq_false_iff_ne.mpr (Ne.symm hcd)]
        simp

lemma isPrefixOf_digits_false (e : List Char) :
    ∀ (N : List Char), (∀ d ∈ N, d.isDigit = true) →
      (∃ d ∈ e, d.isDigit = false) → e.isPrefixOf N = false := by
  induction e with
  | nil =>
    intro N _ hex
    obtain ⟨d, hd, _⟩ := hex
    exact absurd hd (List.not_mem_nil d)
  | cons c e ih =>
    intro N hN hex
    cases N with
    | nil => rfl
    | cons n N =>
      by_cases hcn : c = n
      · subst hcn
        obtain ⟨d, hd, hdf⟩ := hex
        rcases List.mem_cons.mp hd with heq | hd'
        · subst heq
          have := hN d (List.mem_cons_self d N)
          rw [this] at hdf
          exact absurd hdf (by simp)
        · simp only [List.isPrefixOf, beq_self_eq_true, Bool.true_and]
          exact ih N (fun x hx => hN x (List.mem_cons_of_mem _ hx)) ⟨d, hd', hdf⟩
      · simp [List.isPrefixOf, beq_eq_false_iff_ne.mpr hcn]

/-! ## A decidable "no match against any digit tail" certificate

The universally-quantified claims concern documents of the form `P ++ N`
with `P` a concrete prefix and `N` an arbitrary digit string.  `posClean r
c rest = true` certifies that rule `r` cannot match at a position whose
text is `c :: (rest ++ N)`, for every all-digit `N`; it is conservative
(`false` just means "not certified").  `cleanFor r P` extends this to every
position of `P ++ N`: positions inside `N` cannot match because no
pattern's head character is a digit. -/

def posClean (r : Rule) (c : Char) (rest : List Char) : Bool :=
  if c == r.patHead then
    if r.patTail.length ≤ rest.length then
      if r.patTail.isPrefixOf rest then
        match r.kind with
        | .plain => false
        | .noSlash =>
          match (rest.drop r.patTail.length).head? with
          | some d => d == '/'
          | none => false
        | .slashDigits =>
          match rest.drop r.patTail.length with
          | [] => true
          | d :: ds =>
            if d == '/' then
              match ds with
              | [] => false
              | e :: _ => !e.isDigit
            else true
      else true
    else
      !(rest.isPrefixOf r.patTail) ||
        (r.patTail.drop rest.length).any (fun d => !d.isDigit)
  else true

lemma bool_eq_false {b : Bool} (h : ¬ b = true) : b = false := by
  cases b
  · rfl
  · exact absurd rfl h

/-- Reduction of `matchLen` once the head and literal-tail comparisons are
known to succeed. -/
lemma matchLen_eq_of_prefixOf {r : Rule} {c : Char} {rest : List Char}
    (h1 : (c == r.patHead) = true) (h2 : r.patTail.isPrefixOf rest = true) :
    matchLen r c rest =
      (match r.kind with
       | PatKind.plain => some (r.patTail.length, r.repl)
       | PatKind.noSlash =>
         match (rest.drop r.patTail.length).head? with
         | some '/' => none
         | _ => some (r.patTail.length, r.repl)
       | PatKind.slashDigits =>
         match rest.drop r.patTail.length with
         | '/' :: ds =>
           if ds.takeWhile Char.isDigit = [] then none
           else some (r.patTail.length + 1 + (ds.takeWhile Char.isDigit).length,
                      r.repl ++ ds.takeWhile Char.isDigit)
         | _ => none) := by
  unfold matchLen
  rw [h1, h2]
  rfl

lemma matchLen_not_prefixOf {r : Rule} (c : Char) {rest : List Char}
    (h : r.patTail.isPrefixOf rest = false) : matchLen r c rest = none := by
  unfold matchLen
  rw [h, Bool.and_false]
  rfl

lemma matchLen_noSlash_eq {r : Rule} {c : Char} {rest : List Char}
    (hk : r.kind = PatKind.noSlash)
    (h1 : (c == r.patHead) = true) (h2 : r.patTail.isPrefixOf rest = true) :
    matchLen r c rest =
      (match (rest.drop r.patTail.length).head? with
       | some '/' => none
       | _ => some (r.patTail.length, r.repl)) := by
  rw [matchLen_eq_of_prefixOf h1 h2, hk]

lemma matchLen_slashDigits_eq {r : Rule} {c : Char} {rest : List Char}
    (hk : r.kind = PatKind.slashDigits)
    (h1 : (c == r.patHead) = true) (h2 : r.patTail.isPrefixOf rest = true) :
    matchLen r c rest =
      (match rest.drop r.patTail.length with
       | '/' :: ds =>
         if ds.takeWhile Char.isDigit = [] then none
         else some (r.patTail.length + 1 + (ds.takeWhile Char.isDigit).length,
                    r.repl ++ ds.takeWhile Char.isDigit)
       | _ => none) := by
  rw [matchLen_eq_of_prefixOf h1 h2, hk]

lemma posClean_sound {r : Rule} {c : Char} {rest : List Char}
    (h : posClean r c rest = true) (N : List Char)
    (hN : ∀ d ∈ N, d.isDigit = true) :
    matchLen r c (rest ++ N) = none := by
  by_cases hch : (c == r.patHead) = true
  swap
  · exact matchLen_ne_head (bool_eq_false hch) _
  by_cases hlen : r.patTail.length ≤ rest.length
  · by_cases hpre : r.patTail.isPrefixOf rest = true
    · have hfull : r.patTail.isPrefixOf (rest ++ N) = true := by
        rw [isPrefixOf_append_of_le r.patTail rest N hlen]
        exact hpre
      have hdropA : (rest ++ N).drop r.patTail.length
          = rest.drop r.patTail.length ++ N :=
        List.drop_append_of_le_length hlen
      cases hk : r.kind with
      | plain =>
        exfalso
        simp [posClean, hch, hlen, hpre, hk] at h
      | noSlash =>
        cases hhd : (rest.drop r.patTail.length).head? with
        | none =>
          exfalso
          simp [posClean, hch, hlen, hpre, hk, hhd] at h
        | some d =>
          have hd : (d == '/') = true := by
            simpa [posClean, hch, hlen, hpre, hk, hhd] using h
          have hdc : d = '/' := by simpa using hd
          subst hdc
          obtain ⟨t, ht⟩ : ∃ t, rest.drop r.patTail.length = '/' :: t := by
            cases hr : rest.drop r.patTail.length with
            | nil => rw [hr] at hhd; exact absurd hhd (by simp)
            | cons x xs =>
              rw [hr] at hhd
              simp at hhd
              exact ⟨xs, by rw [hhd]⟩
          have hafter : (rest ++ N).drop r.patTail.length = '/' :: (t ++ N) := by
            rw [hdropA, ht]
            rfl
          rw [matchLen_noSlash_eq hk hch hfull, hafter]
          rfl
      | slashDigits =>
        cases hr : rest.drop r.patTail.length with
        | nil =>
          have hafter : (rest ++ N).drop r.patTail.length = N := by
            rw [hdropA, hr]
            rfl
          rw [matchLen_slashDigits_eq hk hch hfull, hafter]
          cases N with
          | nil => rfl
          | cons n N' =>
            have hn : n.isDigit = true := hN n (List.mem_cons_self n N')
            have hne : n ≠ '/' := ne_of_digit_of_not_digit hn (by decide)
            split
            · rename_i ds heq
              exfalso
              injection heq with hh _
              exact hne hh
            · rfl
        | cons d ds' =>
          by_cases hd : (d == '/') = true
          · have hdc : d = '/' := by simpa using hd
            subst hdc
            cases ds' with
            | nil =>
              exfalso
              simp [posClean, hch, hlen, hpre, hk, hr] at h
            | cons e es =>
              have he : e.isDigit = false := by
                simpa [posClean, hch, hlen, hpre, hk, hr] using h
              have hafter : (rest ++ N).drop r.patTail.length
                  = '/' :: (e :: (es ++ N)) := by
                rw [hdropA, hr]
                rfl
              rw [matchLen_slashDigits_eq hk hch hfull, hafter]
              split
              · rename_i ds heq
                injection heq with _ hh
                rw [← hh, List.takeWhile_cons, he]
                simp
              · rfl
          · have hne : d ≠ '/' := fun hx => hd (by rw [hx]; rfl)
            have hafter : (rest ++ N).drop r.patTail.length = d :: (ds' ++ N) := by
              rw [hdropA, hr]
              rfl
            rw [matchLen_slashDigits_eq hk hch hfull, hafter]
            split
            · rename_i ds heq
              exfalso
              injection heq with hh _
              exact hne hh
            · rfl
    · have hfull : r.patTail.isPrefixOf (rest ++ N) = false := by
        rw [isPrefixOf_append_of_le r.patTail rest N hlen]
        exact bool_eq_false hpre
      exact matchLen_not_prefixOf c hfull
  · have hgt : rest.length < r.patTail.length := by omega
    have hcond : r.patTail.isPrefixOf (rest ++ N) = false := by
      rw [isPrefixOf_append_of_gt r.patTail rest N hgt]
      have h2 : (!(rest.isPrefixOf r.patTail) ||
          (r.patTail.drop rest.length).any (fun d => !d.isDigit)) = true := by
        have := h
        unfold posClean at this
        rw [hch, if_pos rfl, if_neg hlen] at this
        exact this
      rcases Bool.or_eq_true_iff.mp h2 with h3 | h4
      · have h5 : rest.isPrefixOf r.patTail = false := by
          cases hb : rest.isPrefixOf r.patTail
          · rfl
          · rw [hb] at h3; exact absurd h3 (by simp)
        rw [h5, Bool.false_and]
      · have h5 : (r.patTail.drop rest.length).isPrefixOf N = false := by
          apply isPrefixOf_digits_false _ N hN
          obtain ⟨d, hdm, hdd⟩ := List.any_eq_true.mp h4
          refine ⟨d, hdm, ?_⟩
          cases hb : d.isDigit
          · rfl
          · rw [hb] at hdd; exact absurd hdd (by simp)
        rw [h5, Bool.and_false]
    exact matchLen_not_prefixOf c hcond

/-- Position-wise cleanliness over every suffix of the concrete prefix. -/
def cleanList (r : Rule) : List Char → Bool
  | [] => true
  | c :: rest => posClean r c rest && cleanList r rest

/-- `cleanFor r P = true` certifies that rule `r` matches nowhere in
`P ++ N`, for every all-digit `N`. -/
def cleanFor (r : Rule) (P : List Char) : Bool :=
  !r.patHead.isDigit && cleanList r P

lemma subAux_clean_aux {r : Rule} (hhead : r.patHead.isDigit = false) :
    ∀ (P : List Char), cleanList r P = true →
      ∀ (N : List Char), (∀ d ∈ N, d.isDigit = true) →
        subAux r (P ++ N) = P ++ N := by
  intro P
  induction P with
  | nil =>
    intro _ N hN
    simpa using subAux_digits r hhead N hN
  | cons c rest ih =>
    intro hcl N hN
    have h1 : posClean r c rest = true := (Bool.and_eq_true_iff.mp hcl).1
    have h2 : cleanList r rest = true := (Bool.and_eq_true_iff.mp hcl).2
    rw [List.cons_append, subAux_cons_none (posClean_sound h1 N hN), ih h2 N hN]

/-- Master lemma: a certified-clean concrete prefix followed by any digit
string passes through one rule unchanged. -/
lemma subAux_clean {r : Rule} {P : List Char} (hclean : cleanFor r P = true)
    (N : List Char) (hN : ∀ d ∈ N, d.isDigit = true) :
    subAux r (P ++ N) = P ++ N := by
  have h1 := Bool.and_eq_true_iff.mp hclean
  have hhead : r.patHead.isDigit = false := by
    have := h1.1
    cases hb : r.patHead.isDigit
    · rfl
    · rw [hb] at this; exact absurd this (by simp)
  exact subAux_clean_aux hhead P h1.2 N hN

/-- And through a whole list of rules. -/
lemma runRules_clean {rs : List Rule} {P : List Char}
    (h : ∀ r ∈ rs, cleanFor r P = true)
    (N : List Char) (hN : ∀ d ∈ N, d.isDigit = true) :
    runRules rs (P ++ N) = P ++ N := by
  induction rs with
  | nil => rfl
  | cons r rs ih =>
    have hstep : runRules (r :: rs) (P ++ N) = runRules rs (subAux r (P ++ N)) := rfl
    rw [hstep, subAux_clean (h r (List.mem_cons_self r rs)) N hN]
    exact ih (fun x hx => h x (List.mem_cons_of_mem r hx))

/-! ## The two rule firings needed by the claims -/

/-- `bg-white/(\d+)` fires on a standalone `bg-white/N` token and rewrites
it to `bg-black/N`, keeping the digits verbatim. -/
lemma rule10_fires (N : List Char) (hne : N ≠ [])
    (hN : ∀ d ∈ N, d.isDigit = true) :
    subAux rule10 ("bg-white/".toList ++ N) = "bg-black/".toList ++ N := by
  have hsplit : "g-white/".toList ++ N = rule10.patTail ++ ('/' :: N) := by
    have h0 : "g-white/".toList = rule10.patTail ++ ['/'] := rfl
    rw [h0, List.append_assoc]
    rfl
  have h1 : ('b' == rule10.patHead) = true := rfl
  have h2 : rule10.patTail.isPrefixOf ("g-white/".toList ++ N) = true := by
    rw [hsplit]
    exact isPrefixOf_self_append _ _
  have htw : N.takeWhile Char.isDigit = N := List.takeWhile_eq_self_iff.mpr hN
  have hdrop : ("g-white/".toList ++ N).drop rule10.patTail.length = '/' :: N := by
    rw [hsplit]
    exact List.drop_left _ _
  have hm : matchLen rule10 'b' ("g-white/".toList ++ N)
      = some (rule10.patTail.length + 1 + N.length, rule10.repl ++ N) := by
    rw [matchLen_slashDigits_eq rfl h1 h2, hdrop]
    show (if N.takeWhile Char.isDigit = [] then none
          else some (rule10.patTail.length + 1 + (N.takeWhile Char.isDigit).length,
                     rule10.repl ++ N.takeWhile Char.isDigit))
        = some (rule10.patTail.length + 1 + N.length, rule10.repl ++ N)
    rw [htw, if_neg hne]
  have hstart : "bg-white/".toList ++ N = 'b' :: ("g-white/".toList ++ N) := rfl
  rw [hstart, subAux_cons_some hm]
  have hlen : ("g-white/".toList ++ N).length ≤ rule10.patTail.length + 1 + N.length := by
    rw [List.length_append]
    have e1 : ("g-white/".toList).length = 8 := rfl
    have e2 : rule10.patTail.length = 7 := rfl
    rw [e1, e2]
  rw [List.drop_eq_nil_of_le hlen, subAux_nil, List.append_nil]
  rfl

/-- `bg-sam-red text-white` fires on `bg-sam-red text-white/N` (its literal
pattern is a strict prefix of the token, stopping before the slash). -/
lemma rule11_fires (N : List Char) (hN : ∀ d ∈ N, d.isDigit = true) :
    subAux rule11 ("bg-sam-red text-white/".toList ++ N)
      = "bg-sam-red text-black/".toList ++ N := by
  have hsplit : "g-sam-red text-white/".toList ++ N
      = rule11.patTail ++ ('/' :: N) := by
    have h0 : "g-sam-red text-white/".toList = rule11.patTail ++ ['/'] := rfl
    rw [h0, List.append_assoc]
    rfl
  have h1 : ('b' == rule11.patHead) = true := rfl
  have h2 : rule11.patTail.isPrefixOf ("g-sam-red text-white/".toList ++ N) = true := by
    rw [hsplit]
    exact isPrefixOf_self_append _ _
  have hm : matchLen rule11 'b' ("g-sam-red text-white/".toList ++ N)
      = some (rule11.patTail.length, rule11.repl) := by
    rw [matchLen_eq_of_prefixOf h1 h2]
    rfl
  have hstart : "bg-sam-red text-white/".toList ++ N
      = 'b' :: ("g-sam-red text-white/".toList ++ N) := rfl
  rw [hstart, subAux_cons_some hm]
  have hdrop : ("g-sam-red text-white/".toList ++ N).drop rule11.patTail.length
      = '/' :: N := by
    rw [hsplit]
    exact List.drop_left _ _
  rw [hdrop]
  have hc : ('/' :: N) = ['/'] ++ N := rfl
  rw [hc, subAux_clean (by decide) N hN, ← List.append_assoc]
  rfl

/-! ## Matching anywhere in a document -/

/-- Whether rule `r` matches at some scan position of `s`. -/
def hasMatch (r : Rule) : List Char → Bool
  | [] => false
  | c :: rest => (matchLen r c rest).isSome || hasMatch r rest

/-- A rule that matches nowhere leaves the text unchanged. -/
lemma subAux_of_not_hasMatch {r : Rule} :
    ∀ (s : List Char), hasMatch r s = false → subAux r s = s := by
  intro s
  induction s with
  | nil => intro _; rfl
  | cons c rest ih =>
    intro h
    cases hm : matchLen r c rest with
    | some p =>
      exfalso
      have htrue : hasMatch r (c :: rest) = true := by
        show ((matchLen r c rest).isSome || hasMatch r rest) = true
        rw [hm]
        rfl
      rw [htrue] at h
      exact Bool.noConfusion h
    | none =>
      have h2 : hasMatch r rest = false := by
        have hh : ((matchLen r c rest).isSome || hasMatch r rest) = false := h
        rw [hm] at hh
        simpa using hh
      rw [subAux_cons_none hm, ih h2]

/-- If no rule of the list matches the text, the whole pipeline is the
identity on it. -/
lemma runRules_fixed {rs : List Rule} {s : List Char}
    (h : ∀ r ∈ rs, hasMatch r s = false) : runRules rs s = s := by
  induction rs with
  | nil => rfl
  | cons r rs ih =>
    have hstep : runRules (r :: rs) s = runRules rs (subAux r s) := rfl
    rw [hstep, subAux_of_not_hasMatch _ (h r (List.mem_cons_self r rs))]
    exact ih (fun x hx => h x (List.mem_cons_of_mem r hx))

/-! ## Decomposing the pipeline -/

lemma runRules_split (rs1 rs2 : List Rule) (s : List Char) :
    runRules (rs1 ++ rs2) s = runRules rs2 (runRules rs1 s) := by
  simp [runRules, List.foldl_append]

lemma runRules_cons (r : Rule) (rs : List Rule) (s : List Char) :
    runRules (r :: rs) s = runRules rs (subAux r s) := rfl

/-! ## Shared helper for fixed-point documents -/

lemma invert_colors_clean {P : List Char}
    (hP : ∀ r ∈ replacements, cleanFor r P = true)
    (N : List Char) (hN : ∀ d ∈ N, d.isDigit = true) :
    invert_colors (String.mk (P ++ N)) = String.mk (P ++ N) := by
  show String.mk (runRules replacements (String.mk (P ++ N)).toList) = _
  have ht : (String.mk (P ++ N)).toList = P ++ N := rfl
  rw [ht, runRules_clean hP N hN]

/-! ## The claims -/

/-- C1 (counterexample): `invert_colors "bg-black/40"` is `"bg-black/40"`,
not `"bg-white/40"`: the protection rule's negative lookahead skips the
suffixed token, so the placeholder round trip never happens. -/
theorem bgBlackSlash_not_inverted :
    invert_colors "bg-black/40" ≠ "bg-white/40" := by decide

/-- C1 (amended): for every nonempty digit string `N`, the document
`bg-black/N` comes out of `invert_colors` unchanged: no rule ever touches
it, because `bg-black(?!/)` refuses tokens followed by `/` and no other
pattern occurs in it. -/
theorem bgBlackSlash_unchanged (N : List Char) (_hne : N ≠ [])
    (hN : ∀ d ∈ N, d.isDigit = true) :
    invert_colors (String.mk ("bg-black/".toList ++ N))
      = String.mk ("bg-black/".toList ++ N) :=
  invert_colors_clean (by decide) N hN

/-- Witness for the amended C1 at `N = "40"`. -/
theorem bgBlackSlash_unchanged_witness :
    ("40".toList ≠ [] ∧ (∀ d ∈ "40".toList, d.isDigit = true)) ∧
    invert_colors (String.mk ("bg-black/".toList ++ "40".toList))
      = String.mk ("bg-black/".toList ++ "40".toList) :=
  ⟨⟨by decide, by decide⟩, bgBlackSlash_unchanged "40".toList (by decide) (by decide)⟩

/-- C2: for every nonempty digit string `N`, the standalone documents
`bg-black/N` and `text-white/N` are fixed points of `invert_colors`: the
protection rules' negative lookaheads skip them and no other rule
matches. -/
theorem suffixed_tokens_fixed_points (N : List Char) (_hne : N ≠ [])
    (hN : ∀ d ∈ N, d.isDigit = true) :
    invert_colors (String.mk ("bg-black/".toList ++ N))
        = String.mk ("bg-black/".toList ++ N) ∧
    invert_colors (String.mk ("text-white/".toList ++ N))
        = String.mk ("text-white/".toList ++ N) :=
  ⟨invert_colors_clean (by decide) N hN, invert_colors_clean (by decide) N hN⟩

/-- Witness for C2 at `N = "7"`. -/
theorem suffixed_tokens_fixed_points_witness :
    ("7".toList ≠ [] ∧ (∀ d ∈ "7".toList, d.isDigit = true)) ∧
    (invert_colors (String.mk ("bg-black/".toList ++ "7".toList))
        = String.mk ("bg-black/".toList ++ "7".toList) ∧
     invert_colors (String.mk ("text-white/".toList ++ "7".toList))
        = String.mk ("text-white/".toList ++ "7".toList)) :=
  ⟨⟨by decide, by decide⟩,
   suffixed_tokens_fixed_points "7".toList (by decide) (by decide)⟩

/-- C3 (counterexample): after the first nine rules, `bg-black/40` still
reads `bg-black/40`, not `bg-white/40`: the token never visits the white
form, because the protection rule never captured it. -/
theorem intermediate_not_white :
    runFirst 9 ("bg-black/40".toList) ≠ "bg-white/40".toList := by decide

/-- C3 (amended): for every nonempty digit string `N`, the document
`bg-black/N` reads `bg-black/N` after the first nine rules, still
`bg-black/N` after the direct white-with-suffix rule, and the full
pipeline is a net no-op on it; the token never passes through the white
form. -/
theorem suffixed_black_pipeline_states (N : List Char) (_hne : N ≠ [])
    (hN : ∀ d ∈ N, d.isDigit = true) :
    runFirst 9 ("bg-black/".toList ++ N) = "bg-black/".toList ++ N ∧
    runFirst 10 ("bg-black/".toList ++ N) = "bg-black/".toList ++ N ∧
    runRules replacements ("bg-black/".toList ++ N) = "bg-black/".toList ++ N :=
  ⟨runRules_clean (by decide) N hN,
   runRules_clean (by decide) N hN,
   runRules_clean (by decide) N hN⟩

/-- Witness for the amended C3 at `N = "40"`. -/
theorem suffixed_black_pipeline_states_witness :
    ("40".toList ≠ [] ∧ (∀ d ∈ "40".toList, d.isDigit = true)) ∧
    (runFirst 9 ("bg-black/".toList ++ "40".toList)
        = "bg-black/".toList ++ "40".toList ∧
     runFirst 10 ("bg-black/".toList ++ "40".toList)
        = "bg-black/".toList ++ "40".toList ∧
     runRules replacements ("bg-black/".toList ++ "40".toList)
        = "bg-black/".toList ++ "40".toList) :=
  ⟨⟨by decide, by decide⟩,
   suffixed_black_pipeline_states "40".toList (by decide) (by decide)⟩

/-- C4: a verbatim `bg-white/N` document comes out as `bg-black/N` for
every nonempty digit string `N`, via the direct unconditional rule
`bg-white/(\d+) -> bg-black/\1`, independent of the placeholder
mechanism. -/
theorem bgWhiteSlash_direct_inversion (N : List Char) (hne : N ≠ [])
    (hN : ∀ d ∈ N, d.isDigit = true) :
    invert_colors (String.mk ("bg-white/".toList ++ N))
      = String.mk ("bg-black/".toList ++ N) := by
  have h9 : runRules [rule1, rule2, rule3, rule4, rule5, rule6, rule7, rule8,
      rule9] ("bg-white/".toList ++ N) = "bg-white/".toList ++ N :=
    @runRules_clean [rule1, rule2, rule3, rule4, rule5, rule6, rule7, rule8,
      rule9] ("bg-white/".toList) (by decide) N hN
  have h1112 : runRules [rule11, rule12] ("bg-black/".toList ++ N)
      = "bg-black/".toList ++ N :=
    @runRules_clean [rule11, rule12] ("bg-black/".toList) (by decide) N hN
  have hsplit : replacements
      = [rule1, rule2, rule3, rule4, rule5, rule6, rule7, rule8, rule9]
        ++ rule10 :: [rule11, rule12] := rfl
  show String.mk (runRules replacements
    (String.mk ("bg-white/".toList ++ N)).toList) = _
  have ht : (String.mk ("bg-white/".toList ++ N)).toList
      = "bg-white/".toList ++ N := rfl
  rw [ht, hsplit, runRules_split, h9, runRules_cons,
    rule10_fires N hne hN, h1112]

/-- Witness for C4 at `N = "40"`. -/
theorem bgWhiteSlash_direct_inversion_witness :
    ("40".toList ≠ [] ∧ (∀ d ∈ "40".toList, d.isDigit = true)) ∧
    invert_colors (String.mk ("bg-white/".toList ++ "40".toList))
      = String.mk ("bg-black/".toList ++ "40".toList) :=
  ⟨⟨by decide, by decide⟩,
   bgWhiteSlash_direct_inversion "40".toList (by decide) (by decide)⟩

/-- C5: the plain suffix-free token `bg-black` becomes `bg-white`, and the
end-to-end document `class="bg-black text-white border-white"` becomes
`class="bg-white text-black border-black"`. -/
theorem plain_black_and_end_to_end :
    invert_colors "bg-black" = "bg-white" ∧
    invert_colors "class=\"bg-black text-white border-white\""
      = "class=\"bg-white text-black border-black\"" :=
  ⟨by decide, by decide⟩

/-- C6: a document in which none of the twelve rule patterns matches
anywhere passes through `invert_colors` unchanged. -/
theorem no_match_identity (content : String)
    (h : ∀ r ∈ replacements, hasMatch r content.toList = false) :
    invert_colors content = content := by
  show String.mk (runRules replacements content.toList) = content
  rw [runRules_fixed h]
  cases content
  rfl

/-- Witness for C6 on the token-free document `"hello world"`. -/
theorem no_match_identity_witness :
    (∀ r ∈ replacements, hasMatch r ("hello world").toList = false) ∧
    invert_colors "hello world" = "hello world" :=
  ⟨by decide, no_match_identity "hello world" (by decide)⟩

/-- C7: the five literal-token test equalities of the spec. -/
theorem literal_token_tests :
    invert_colors "border-white" = "border-black" ∧
    invert_colors "hover:bg-white" = "hover:bg-black" ∧
    invert_colors "hover:text-white" = "hover:text-black" ∧
    invert_colors "bg-sam-red text-white" = "bg-sam-red text-black" ∧
    invert_colors "text-white hover:text-white" = "text-black hover:text-black" :=
  ⟨by decide, by decide, by decide, by decide, by decide⟩

/-- C8: the compound fixup rule fires on an opacity-suffixed white-text
token: `bg-sam-red text-white/N` becomes `bg-sam-red text-black/N` for
every nonempty digit string `N`, even though the standalone `text-white/N`
is left unchanged. -/
theorem samRed_suffixed_fixup (N : List Char) (_hne : N ≠ [])
    (hN : ∀ d ∈ N, d.isDigit = true) :
    invert_colors (String.mk ("bg-sam-red text-white/".toList ++ N))
        = String.mk ("bg-sam-red text-black/".toList ++ N) ∧
    invert_colors (String.mk ("text-white/".toList ++ N))
        = String.mk ("text-white/".toList ++ N) := by
  constructor
  · have h10 : runRules [rule1, rule2, rule3, rule4, rule5, rule6, rule7,
        rule8, rule9, rule10] ("bg-sam-red text-white/".toList ++ N)
        = "bg-sam-red text-white/".toList ++ N :=
      @runRules_clean [rule1, rule2, rule3, rule4, rule5, rule6, rule7,
        rule8, rule9, rule10] ("bg-sam-red text-white/".toList) (by decide) N hN
    have h12 : runRules [rule12] ("bg-sam-red text-black/".toList ++ N)
        = "bg-sam-red text-black/".toList ++ N :=
      @runRules_clean [rule12] ("bg-sam-red text-black/".toList) (by decide) N hN
    have hsplit : replacements
        = [rule1, rule2, rule3, rule4, rule5, rule6, rule7, rule8, rule9,
           rule10] ++ rule11 :: [rule12] := rfl
    show String.mk (runRules replacements
      (String.mk ("bg-sam-red text-white/".toList ++ N)).toList) = _
    have ht : (String.mk ("bg-sam-red text-white/".toList ++ N)).toList
        = "bg-sam-red text-white/".toList ++ N := rfl
    rw [ht, hsplit, runRules_split, h10, runRules_cons,
      rule11_fires N hN, h12]
  · exact invert_colors_clean (by decide) N hN

/-- Witness for C8 at `N = "40"`. -/
theorem samRed_suffixed_fixup_witness :
    ("40".toList ≠ [] ∧ (∀ d ∈ "40".toList, d.isDigit = true)) ∧
    (invert_colors (String.mk ("bg-sam-red text-white/".toList ++ "40".toList))
        = String.mk ("bg-sam-red text-black/".toList ++ "40".toList) ∧
     invert_colors (String.mk ("text-white/".toList ++ "40".toList))
        = String.mk ("text-white/".toList ++ "40".toList)) :=
  ⟨⟨by decide, by decide⟩,
   samRed_suffixed_fixup "40".toList (by decide) (by decide)⟩

/-- C10: the transformation is not an involution: there is a document
containing a recognized color token (here `border-white`, a rule pattern)
on which running `invert_colors` twice does not reproduce the original. -/
theorem not_involution :
    ∃ t : String, (∃ r ∈ replacements, hasMatch r t.toList = true) ∧
      invert_colors (invert_colors t) ≠ t :=
  ⟨"border-white", ⟨rule3, by decide, by decide⟩, by decide⟩

/-! ## Occurrences of a word in a document

Needed for the refinement claim about the final rule: `occurs v s` decides
whether `v` appears as a contiguous substring of `s`. -/

def occurs (v : List Char) : List Char → Bool
  | [] => v.isPrefixOf []
  | c :: rest => v.isPrefixOf (c :: rest) || occurs v rest

lemma prefixOf_exists {p s : List Char} :
    p.isPrefixOf s = true ↔ ∃ tl, s = p ++ tl := by
  induction p generalizing s with
  | nil => simp [List.isPrefixOf]
  | cons c p ih =>
    cases s with
    | nil =>
      simp [List.isPrefixOf]
    | cons d s =>
      simp only [List.isPrefixOf, Bool.and_eq_true_iff, beq_iff_eq, ih]
      constructor
      · rintro ⟨h1, tl, htl⟩
        exact ⟨tl, by rw [htl, h1]; rfl⟩
      · rintro ⟨tl, htl⟩
        injection htl with h1 h2
        exact ⟨h1.symm, tl, h2⟩

lemma suffixOf_exists {a s : List Char} :
    a.isSuffixOf s = true ↔ ∃ hd, s = hd ++ a := by
  show a.reverse.isPrefixOf s.reverse = true ↔ _
  rw [prefixOf_exists]
  constructor
  · rintro ⟨tl, htl⟩
    refine ⟨tl.reverse, ?_⟩
    have h2 := congrArg List.reverse htl
    simpa using h2
  · rintro ⟨hd, rfl⟩
    exact ⟨hd.reverse, by simp⟩

lemma occurs_iff {v s : List Char} :
    occurs v s = true ↔ ∃ a b, s = a ++ v ++ b := by
  induction s with
  | nil =>
    simp only [occurs, prefixOf_exists]
    constructor
    · rintro ⟨tl, htl⟩
      exact ⟨[], tl, by simpa using htl⟩
    · rintro ⟨a, b, hab⟩
      have h0 : a ++ v ++ b = [] := hab.symm
      simp only [List.append_eq_nil] at h0
      exact ⟨[], by simp [h0.1.2, h0.2]⟩
  | cons c rest ih =>
    simp only [occurs, Bool.or_eq_true_iff, prefixOf_exists, ih]
    constructor
    · rintro (⟨tl, htl⟩ | ⟨a, b, hab⟩)
      · exact ⟨[], tl, by simpa using htl⟩
      · exact ⟨c :: a, b, by rw [hab]; rfl⟩
    · rintro ⟨a, b, hab⟩
      cases a with
      | nil => exact Or.inl ⟨b, by simpa using hab⟩
      | cons x a' =>
        injection hab with h1 h2
        exact Or.inr ⟨a', b, h2⟩

lemma occurs_of_prefixOf_suffix {v s l : List Char} (hl : l <:+ s)
    (h : v.isPrefixOf l = true) : occurs v s = true := by
  obtain ⟨hd, rfl⟩ := hl
  obtain ⟨tl, rfl⟩ := prefixOf_exists.mp h
  exact occurs_iff.mpr ⟨hd, tl, by simp⟩

lemma occurs_mono_suffix {v s l : List Char} (hl : l <:+ s)
    (h : occurs v l = true) : occurs v s = true := by
  obtain ⟨hd, rfl⟩ := hl
  obtain ⟨a, b, rfl⟩ := occurs_iff.mp h
  exact occurs_iff.mpr ⟨hd ++ a, b, by simp⟩

lemma occurs_append_right {x y s : List Char} (h : occurs (x ++ y) s = true) :
    occurs y s = true := by
  obtain ⟨a, b, hab⟩ := occurs_iff.mp h
  exact occurs_iff.mpr ⟨a ++ x, b, by rw [hab]; simp⟩

lemma mem_of_occurs {v s : List Char} (h : occurs v s = true) {ch : Char}
    (hch : ch ∈ v) : ch ∈ s := by
  obtain ⟨a, b, rfl⟩ := occurs_iff.mp h
  simp [hch]

lemma occurs_length_le {v s : List Char} (h : occurs v s = true) :
    v.length ≤ s.length := by
  obtain ⟨a, b, rfl⟩ := occurs_iff.mp h
  simp [List.length_append]
  omega

lemma occurs_append_elim {v x y : List Char} (h : occurs v (x ++ y) = true) :
    occurs v x = true ∨ occurs v y = true ∨
      ∃ v1 v2, v = v1 ++ v2 ∧ v1 ≠ [] ∧ v2 ≠ [] ∧
        v1.isSuffixOf x = true ∧ v2.isPrefixOf y = true := by
  obtain ⟨a, b, hab⟩ := occurs_iff.mp h
  have hab2 : x ++ y = a ++ (v ++ b) := by rw [hab]; simp
  rcases List.append_eq_append_iff.mp hab2 with ⟨a', _, hy⟩ | ⟨c', hx, hvb⟩
  · exact Or.inr (Or.inl (occurs_iff.mpr ⟨a', b, by rw [hy]; simp⟩))
  · rcases List.append_eq_append_iff.mp hvb with ⟨d, hc, _⟩ | ⟨e, hv, hyy⟩
    · exact Or.inl (occurs_iff.mpr ⟨a, d, by rw [hx, hc]; simp⟩)
    · cases hc' : c' with
      | nil =>
        subst hc'
        refine Or.inr (Or.inl (occurs_iff.mpr ⟨[], b, ?_⟩))
        rw [hyy]
        simp [hv]
      | cons z zs =>
        cases he : e with
        | nil =>
          subst he
          refine Or.inl (occurs_iff.mpr ⟨a, [], ?_⟩)
          rw [hx]
          simp [hv]
        | cons w ws =>
          refine Or.inr (Or.inr ⟨c', e, by rw [hv], by rw [hc']; simp,
            by rw [he]; simp, ?_, ?_⟩)
          · exact suffixOf_exists.mpr ⟨a, hx⟩
          · exact prefixOf_exists.mpr ⟨b, hyy⟩

/-! ## Inversion of a successful match -/

lemma matchLen_plain_eq {r : Rule} {c : Char} {rest : List Char}
    (hk : r.kind = PatKind.plain)
    (h1 : (c == r.patHead) = true) (h2 : r.patTail.isPrefixOf rest = true) :
    matchLen r c rest = some (r.patTail.length, r.repl) := by
  rw [matchLen_eq_of_prefixOf h1 h2, hk]

lemma matchLen_some_shape {r : Rule} {c : Char} {rest : List Char} {k : Nat}
    {out : List Char} (h : matchLen r c rest = some (k, out)) :
    c = r.patHead ∧ r.patTail.isPrefixOf rest = true ∧
      ∃ D, out = r.repl ++ D ∧ (∀ d ∈ D, d.isDigit = true) := by
  by_cases h1 : (c == r.patHead) = true
  swap
  · rw [matchLen_ne_head (bool_eq_false h1)] at h
    exact absurd h (by simp)
  by_cases h2 : r.patTail.isPrefixOf rest = true
  swap
  · rw [matchLen_not_prefixOf c (bool_eq_false h2)] at h
    exact absurd h (by simp)
  refine ⟨by simpa using h1, h2, ?_⟩
  cases hk : r.kind with
  | plain =>
    rw [matchLen_plain_eq hk h1 h2] at h
    injection h with h3
    injection h3 with h4 h5
    exact ⟨[], by rw [← h5, List.append_nil], by simp⟩
  | noSlash =>
    rw [matchLen_noSlash_eq hk h1 h2] at h
    split at h
    · exact absurd h (by simp)
    · injection h with h3
      injection h3 with h4 h5
      exact ⟨[], by rw [← h5, List.append_nil], by simp⟩
  | slashDigits =>
    rw [matchLen_slashDigits_eq hk h1 h2] at h
    split at h
    · split at h
      · exact absurd h (by simp)
      · injection h with h3
        injection h3 with h4 h5
        refine ⟨_, h5.symm, ?_⟩
        intro d hd
        exact List.mem_takeWhile_imp hd
    · exact absurd h (by simp)

/-! ## A global replace pass cannot create an occurrence of a word `v`

`aux_no_pref` tracks a partially-consumed occurrence: if a nonempty suffix
`v2` of `v` is a prefix of the output of the scan on `s'`, and the already
consumed part `v1` was copied verbatim right before `s'`, then either `v2`
was copied verbatim too, or the scan hit a replacement mid-occurrence —
refuted by the span hypotheses. -/

lemma suffix_drop_of {l S : List Char} (h : l <:+ S) : ∃ i, S.drop i = l := by
  obtain ⟨t, rfl⟩ := h
  exact ⟨t.length, List.drop_left t l⟩

lemma head_of_prefixOf_cons {v : List Char} {c : Char} {s : List Char}
    (hv : v ≠ []) (h : v.isPrefixOf (c :: s) = true) :
    ∃ v', v = c :: v' ∧ v'.isPrefixOf s = true := by
  cases v with
  | nil => exact absurd rfl hv
  | cons a v' =>
    simp only [List.isPrefixOf, Bool.and_eq_true_iff, beq_iff_eq] at h
    exact ⟨v', by rw [h.1], h.2⟩

lemma aux_no_pref {r : Rule} {v S : List Char}
    (hmidR : ∀ c rest k out, (c :: rest) <:+ S → matchLen r c rest = some (k, out) →
        ∀ v1 v2, v = v1 ++ v2 → v2 ≠ [] → out.length < v2.length →
        out.isPrefixOf v2 = false)
    (hspanS : ∀ i v1 v2 c rest k out, S.drop i = v1 ++ c :: rest → v = v1 ++ v2 →
        v1 ≠ [] → v2 ≠ [] → matchLen r c rest = some (k, out) →
        v2.isPrefixOf out = true →
        (∀ j c' rest', j < v1.length → v1.drop j ++ (c :: rest) = c' :: rest' →
          matchLen r c' rest' = none) →
        False) :
    ∀ n s' v1 v2, s'.length ≤ n → (v1 ++ s') <:+ S → v = v1 ++ v2 →
      v1 ≠ [] → v2 ≠ [] →
      (∀ j c' rest', j < v1.length → v1.drop j ++ s' = c' :: rest' →
        matchLen r c' rest' = none) →
      v2.isPrefixOf (subAux r s') = true → v2.isPrefixOf s' = true := by
  intro n
  induction n with
  | zero =>
    intro s' v1 v2 hlen _ _ _ hv2 _ hpre
    cases s' with
    | nil =>
      rw [subAux_nil] at hpre
      cases v2 with
      | nil => exact absurd rfl hv2
      | cons z zs => exact absurd hpre (by simp [List.isPrefixOf])
    | cons c rest => simp at hlen
  | succ n ih =>
    intro s' v1 v2 hlen hsuf hsplit hv1 hv2 hnone hpre
    cases s' with
    | nil =>
      rw [subAux_nil] at hpre
      cases v2 with
      | nil => exact absurd rfl hv2
      | cons z zs => exact absurd hpre (by simp [List.isPrefixOf])
    | cons c rest =>
      cases hm : matchLen r c rest with
      | none =>
        rw [subAux_cons_none hm] at hpre
        obtain ⟨v2', rfl, hpre'⟩ := head_of_prefixOf_cons hv2 hpre
        cases hv2' : v2' with
        | nil =>
          subst hv2'
          simp [List.isPrefixOf]
        | cons z zs =>
          have hlen' : rest.length ≤ n := by simp at hlen; omega
          have hsuf' : ((v1 ++ [c]) ++ rest) <:+ S := by
            rw [List.append_assoc]
            exact hsuf
          have hsplit' : v = (v1 ++ [c]) ++ v2' := by
            rw [hsplit, List.append_assoc]
            rfl
          have hnone' : ∀ j c' rest', j < (v1 ++ [c]).length →
              (v1 ++ [c]).drop j ++ rest = c' :: rest' →
              matchLen r c' rest' = none := by
            intro j c' rest' hj heq
            rw [List.length_append, List.length_cons, List.length_nil] at hj
            by_cases hjlt : j < v1.length
            · have hdj : (v1 ++ [c]).drop j = v1.drop j ++ [c] :=
                List.drop_append_of_le_length (le_of_lt hjlt)
              rw [hdj, List.append_assoc] at heq
              exact hnone j c' rest' hjlt (by simpa using heq)
            · have hj1 : j = v1.length := by omega
              rw [hj1, List.drop_left] at heq
              have hc : c = c' ∧ rest = rest' := by
                constructor
                · exact (List.cons.injEq .. ▸ heq : _ ∧ _).1
                · exact (List.cons.injEq .. ▸ heq : _ ∧ _).2
              rw [← hc.1, ← hc.2]
              exact hm
          have hrec := ih rest (v1 ++ [c]) v2' hlen' hsuf' hsplit'
            (by simp) (by rw [hv2']; simp) hnone' hpre'
          simp only [List.isPrefixOf, beq_self_eq_true, Bool.true_and]
          rw [← hv2']
          exact hrec
      | some p =>
        obtain ⟨k, out⟩ := p
        rw [subAux_cons_some hm] at hpre
        by_cases hl : v2.length ≤ out.length
        · have h3 : v2.isPrefixOf out = true := by
            rw [isPrefixOf_append_of_le v2 out _ hl] at hpre
            exact hpre
          obtain ⟨i, hi⟩ := suffix_drop_of hsuf
          exact absurd (hspanS i v1 v2 c rest k out hi hsplit hv1 hv2 hm h3 hnone)
            (fun hf => hf)
        · have h3 : out.isPrefixOf v2 = true := by
            rw [isPrefixOf_append_of_gt v2 out _ (by omega)] at hpre
            exact (Bool.and_eq_true_iff.mp hpre).1
          have h4 := hmidR c rest k out
            (by exact List.IsSuffix.trans (List.suffix_append v1 (c :: rest)) hsuf)
            hm v1 v2 hsplit hv2 (by omega)
          rw [h4] at h3
          exact absurd h3 (by simp)

/-- Master lemma: under the occurrence/side-overlap hypotheses, one global
replace pass leaves the output free of the word `v`. -/
lemma pass_no_occ {r : Rule} {v S : List Char} (hv : v ≠ [])
    (hocc : ∀ c rest, (c :: rest) <:+ S → v.isPrefixOf (c :: rest) = true →
        matchLen r c rest ≠ none)
    (hout : ∀ c rest k out, (c :: rest) <:+ S → matchLen r c rest = some (k, out) →
        occurs v out = false)
    (hstart : ∀ c rest k out, (c :: rest) <:+ S → matchLen r c rest = some (k, out) →
        ∀ v1 v2, v = v1 ++ v2 → v1 ≠ [] → v2 ≠ [] → v1.isSuffixOf out = false)
    (hmidR : ∀ c rest k out, (c :: rest) <:+ S → matchLen r c rest = some (k, out) →
        ∀ v1 v2, v = v1 ++ v2 → v2 ≠ [] → out.length < v2.length →
        out.isPrefixOf v2 = false)
    (hspanS : ∀ i v1 v2 c rest k out, S.drop i = v1 ++ c :: rest → v = v1 ++ v2 →
        v1 ≠ [] → v2 ≠ [] → matchLen r c rest = some (k, out) →
        v2.isPrefixOf out = true →
        (∀ j c' rest', j < v1.length → v1.drop j ++ (c :: rest) = c' :: rest' →
          matchLen r c' rest' = none) →
        False) :
    ∀ n s', s'.length ≤ n → s' <:+ S → occurs v (subAux r s') = false := by
  intro n
  induction n with
  | zero =>
    intro s' hlen _
    cases s' with
    | nil =>
      rw [subAux_nil]
      cases hocc0 : occurs v []
      · rfl
      · exfalso
        have := occurs_length_le hocc0
        cases v with
        | nil => exact absurd rfl hv
        | cons a v' => simp at this
    | cons c rest => simp at hlen
  | succ n ih =>
    intro s' hlen hsuf
    cases s' with
    | nil =>
      rw [subAux_nil]
      cases hocc0 : occurs v []
      · rfl
      · exfalso
        have := occurs_length_le hocc0
        cases v with
        | nil => exact absurd rfl hv
        | cons a v' => simp at this
    | cons c rest =>
      have hrest_suf : rest <:+ S :=
        List.IsSuffix.trans (List.suffix_cons c rest) hsuf
      cases hm : matchLen r c rest with
      | none =>
        rw [subAux_cons_none hm]
        cases hocc0 : occurs v (c :: subAux r rest)
        · rfl
        exfalso
        have hocc1 : (v.isPrefixOf (c :: subAux r rest) ||
            occurs v (subAux r rest)) = true := hocc0
        rcases Bool.or_eq_true_iff.mp hocc1 with hpre | hocc2
        · obtain ⟨v', rfl, hpre'⟩ := head_of_prefixOf_cons hv hpre
          cases hv' : v' with
          | nil =>
            subst hv'
            exact hocc c rest hsuf (by simp [List.isPrefixOf]) hm
          | cons z zs =>
            have hrec := aux_no_pref hmidR hspanS n rest [c] v'
              (by simp at hlen; omega)
              (by simpa using hsuf) rfl (by simp) (by rw [hv']; simp)
              (by
                intro j c' rest' hj heq
                simp at hj
                rw [hj] at heq
                simp at heq
                rw [← heq.1, ← heq.2]
                exact hm)
              hpre'
            have hvpre : (c :: v').isPrefixOf (c :: rest) = true := by
              simp [List.isPrefixOf, hrec]
            exact hocc c rest hsuf hvpre hm
        · have := ih rest (by simp at hlen; omega) hrest_suf
          rw [this] at hocc2
          exact Bool.noConfusion hocc2
      | some p =>
        obtain ⟨k, out⟩ := p
        rw [subAux_cons_some hm]
        cases hocc0 : occurs v (out ++ subAux r (rest.drop k))
        · rfl
        exfalso
        rcases occurs_append_elim hocc0 with h1 | h2 | ⟨v1, v2, hsp, hv1, hv2, hsufo, hpre2⟩
        · rw [hout c rest k out hsuf hm] at h1
          exact Bool.noConfusion h1
        · have hdk_suf : rest.drop k <:+ S :=
            List.IsSuffix.trans (List.drop_suffix k rest) hrest_suf
          have hdk_len : (rest.drop k).length ≤ n := by
            simp [List.length_drop] at hlen ⊢
            omega
          have := ih (rest.drop k) hdk_len hdk_suf
          rw [this] at h2
          exact Bool.noConfusion h2
        · have h4 := hstart c rest k out hsuf hm v1 v2 hsp hv1 hv2
          rw [h4] at hsufo
          exact Bool.noConfusion hsufo

/-! ## Decidable certificates for the side hypotheses of `pass_no_occ`

Replacements have the form `q ++ D` with `q` the concrete part and `D` a
(possibly empty) run of digits; the forbidden words are digit-free, so every
side condition reduces to a decidable check on `q` plus digit reasoning. -/

lemma isSuffixOf_append_cases {a b c : List Char} (h : a.isSuffixOf (b ++ c) = true) :
    a.isSuffixOf c = true ∨ ∃ x, a = x ++ c ∧ x ≠ [] ∧ x.isSuffixOf b = true := by
  obtain ⟨hd, hhd⟩ := suffixOf_exists.mp h
  rcases List.append_eq_append_iff.mp hhd with ⟨a', hhd2, hc⟩ | ⟨c'', hb, ha⟩
  · exact Or.inl (suffixOf_exists.mpr ⟨a', hc⟩)
  · cases hc'' : c'' with
    | nil =>
      subst hc''
      refine Or.inl (suffixOf_exists.mpr ⟨[], ?_⟩)
      simp only [List.nil_append] at ha ⊢
      exact ha.symm
    | cons w ws =>
      exact Or.inr ⟨c'', ha, by rw [hc'']; simp, suffixOf_exists.mpr ⟨hd, hb⟩⟩

lemma occurs_false_of_missing_char {v q D : List Char} {ch : Char}
    (hch : ch ∈ v) (hq : ch ∉ q) (hd : ch.isDigit = false)
    (hD : ∀ d ∈ D, d.isDigit = true) :
    occurs v (q ++ D) = false := by
  cases h : occurs v (q ++ D)
  · rfl
  exfalso
  have hmem := mem_of_occurs h hch
  rcases List.mem_append.mp hmem with h1 | h2
  · exact hq h1
  · rw [hD ch h2] at hd
    exact Bool.noConfusion hd

/-- No nonempty proper prefix of `v` ends a replacement block. -/
def startCert (v q : List Char) : Bool :=
  (List.range v.length).all (fun n => decide (n = 0) || !((v.take n).isSuffixOf q))

lemma hstart_of_cert {v q : List Char} (hc : startCert v q = true)
    (hnd : v.all (fun ch => !ch.isDigit) = true) {D : List Char}
    (hD : ∀ d ∈ D, d.isDigit = true) :
    ∀ v1 v2, v = v1 ++ v2 → v1 ≠ [] → v2 ≠ [] →
      v1.isSuffixOf (q ++ D) = false := by
  intro v1 v2 hsplit hv1 hv2
  cases hsb : v1.isSuffixOf (q ++ D)
  · rfl
  exfalso
  rcases isSuffixOf_append_cases hsb with h1 | ⟨x, hx, hxne, hxsuf⟩
  · obtain ⟨hd0, hhd⟩ := suffixOf_exists.mp h1
    cases hv1c : v1 with
    | nil => exact hv1 hv1c
    | cons a v1' =>
      have ha_mem_D : a ∈ D := by
        rw [hhd, hv1c]
        simp
      have ha_mem_v : a ∈ v := by
        rw [hsplit, hv1c]
        simp
      have hall := List.all_eq_true.mp hnd a ha_mem_v
      rw [hD a ha_mem_D] at hall
      simp at hall
  · cases hD0 : D with
    | cons d ds =>
      have hd_mem_v : d ∈ v := by
        rw [hsplit, hx, hD0]
        simp
      have hall := List.all_eq_true.mp hnd d hd_mem_v
      rw [hD d (by rw [hD0]; simp)] at hall
      simp at hall
    | nil =>
      subst hD0
      rw [List.append_nil] at hx
      have hn1 : v1 = v.take v1.length := by
        rw [hsplit, List.take_left]
      have hnlt : v1.length < v.length := by
        rw [hsplit, List.length_append]
        cases v2 with
        | nil => exact absurd rfl hv2
        | cons _ _ => simp
      have hcert := List.all_eq_true.mp hc v1.length (List.mem_range.mpr hnlt)
      rcases Bool.or_eq_true_iff.mp hcert with hz | hq2
      · have hz2 := of_decide_eq_true hz
        rw [List.length_eq_zero] at hz2
        exact hv1 hz2
      · rw [← hn1, hx, hxsuf] at hq2
        simp at hq2

/-- No replacement block is buried strictly inside `v`. -/
def midCert (v q : List Char) : Bool :=
  (List.range v.length).all (fun n =>
    decide ((v.drop n).length ≤ q.length) || !(q.isPrefixOf (v.drop n)))

lemma hmidR_of_cert {v q : List Char} (hc : midCert v q = true) {D : List Char} :
    ∀ v1 v2, v = v1 ++ v2 → v2 ≠ [] → (q ++ D).length < v2.length →
      (q ++ D).isPrefixOf v2 = false := by
  intro v1 v2 hsplit hv2 hlen
  cases hb : (q ++ D).isPrefixOf v2
  · rfl
  exfalso
  obtain ⟨tl, htl⟩ := prefixOf_exists.mp hb
  have hq : q.isPrefixOf v2 = true := prefixOf_exists.mpr ⟨D ++ tl, by rw [htl]; simp⟩
  have hn2 : v2 = v.drop v1.length := by
    rw [hsplit, List.drop_left]
  have hnlt : v1.length < v.length := by
    rw [hsplit, List.length_append]
    cases v2 with
    | nil => exact absurd rfl hv2
    | cons _ _ => simp
  have hcert := List.all_eq_true.mp hc v1.length (List.mem_range.mpr hnlt)
  rw [← hn2] at hcert
  rcases Bool.or_eq_true_iff.mp hcert with h1 | h2
  · have := of_decide_eq_true h1
    rw [List.length_append] at hlen
    omega
  · rw [hq] at h2
    simp at h2

/-- No nonempty proper suffix of `v` starts a replacement block. -/
def spanCert (v q : List Char) : Bool :=
  (List.range v.length).all (fun n => decide (n = 0) ||
    (if (v.drop n).length ≤ q.length then !((v.drop n).isPrefixOf q)
     else !(q.isPrefixOf (v.drop n))))

lemma hspan_of_cert {v q : List Char} (hc : spanCert v q = true) {D : List Char} :
    ∀ v1 v2, v = v1 ++ v2 → v1 ≠ [] → v2 ≠ [] →
      v2.isPrefixOf (q ++ D) = false := by
  intro v1 v2 hsplit hv1 hv2
  cases hb : v2.isPrefixOf (q ++ D)
  · rfl
  exfalso
  have hn2 : v2 = v.drop v1.length := by
    rw [hsplit, List.drop_left]
  have hnlt : v1.length < v.length := by
    rw [hsplit, List.length_append]
    cases v2 with
    | nil => exact absurd rfl hv2
    | cons _ _ => simp
  have hcert := List.all_eq_true.mp hc v1.length (List.mem_range.mpr hnlt)
  rw [← hn2] at hcert
  rcases Bool.or_eq_true_iff.mp hcert with hz | h2
  · have hz2 := of_decide_eq_true hz
    rw [List.length_eq_zero] at hz2
    rw [hsplit, hz2] at hn2
    exact hv1 hz2
  · by_cases hll : v2.length ≤ q.length
    · rw [if_pos hll] at h2
      rw [isPrefixOf_append_of_le v2 q D hll] at hb
      rw [hb] at h2
      simp at h2
    · rw [if_neg hll] at h2
      rw [isPrefixOf_append_of_gt v2 q D (by omega)] at hb
      have := (Bool.and_eq_true_iff.mp hb).1
      rw [this] at h2
      simp at h2

lemma hocc_of_not_occurs {r : Rule} {v S : List Char} (h : occurs v S = false) :
    ∀ c rest, (c :: rest) <:+ S → v.isPrefixOf (c :: rest) = true →
      matchLen r c rest ≠ none := by
  intro c rest hsuf hpre
  exfalso
  have h2 := occurs_of_prefixOf_suffix hsuf hpre
  rw [h] at h2
  exact Bool.noConfusion h2

/-- Bundled preservation: under the decidable certificates on the rule's
replacement, a pass cannot create an occurrence of `v`. -/
lemma pass_no_occ_clean {r : Rule} {v : List Char} (S : List Char)
    (hv : v ≠ [])
    (hnd : v.all (fun ch => !ch.isDigit) = true)
    (hS : occurs v S = false)
    (ch : Char) (hchv : ch ∈ v) (hchq : ch ∉ r.repl) (hchd : ch.isDigit = false)
    (hstartc : startCert v r.repl = true)
    (hmidc : midCert v r.repl = true)
    (hspanc : spanCert v r.repl = true) :
    occurs v (subAux r S) = false := by
  refine pass_no_occ hv (hocc_of_not_occurs hS) ?_ ?_ ?_ ?_ S.length S le_rfl
    (List.suffix_refl S)
  · intro c rest k out _ hm
    obtain ⟨_, _, D, hout, hD⟩ := matchLen_some_shape hm
    rw [hout]
    exact occurs_false_of_missing_char hchv hchq hchd hD
  · intro c rest k out _ hm v1 v2 hsplit hv1 hv2
    obtain ⟨_, _, D, hout, hD⟩ := matchLen_some_shape hm
    rw [hout]
    exact hstart_of_cert hstartc hnd hD v1 v2 hsplit hv1 hv2
  · intro c rest k out _ hm v1 v2 hsplit hv2 hlen
    obtain ⟨_, _, D, hout, hD⟩ := matchLen_some_shape hm
    rw [hout] at hlen ⊢
    exact hmidR_of_cert hmidc v1 v2 hsplit hv2 hlen
  · intro i v1 v2 c rest k out _ hsplit hv1 hv2 hm hpre _
    obtain ⟨_, _, D, hout, hD⟩ := matchLen_some_shape hm
    rw [hout] at hpre
    rw [hspan_of_cert hspanc v1 v2 hsplit hv1 hv2] at hpre
    exact Bool.noConfusion hpre

/-! ## The forbidden words of the final-rule analysis -/

/-- `hover:text-white`, the word whose absence disables the final rule. -/
def HL : List Char := "hover:text-white".toList

/-- The white-text sentinel. -/
def TWTL : List Char := "TEXT_WHITE_TEMP".toList

/-- `hover:text-whi` directly followed by the white-text sentinel: the one
configuration that could regenerate `hover:text-white` during sentinel
restoration. -/
def W29L : List Char := "hover:text-whiTEXT_WHITE_TEMP".toList

lemma split_of_append {v v1 v2 : List Char} (h : v = v1 ++ v2) :
    v1 = v.take v1.length ∧ v2 = v.drop v1.length := by
  subst h
  exact ⟨(List.take_left v1 v2).symm, (List.drop_left v1 v2).symm⟩

/-- Like `pass_no_occ_clean` but with the occurrence hypothesis and the
span hypothesis supplied explicitly (for the establishing pass and for the
sentinel-restoring passes). -/
lemma pass_no_occ_certs {r : Rule} {v : List Char} (S : List Char)
    (hv : v ≠ []) (hnd : v.all (fun ch => !ch.isDigit) = true)
    (hocc : ∀ c rest, (c :: rest) <:+ S → v.isPrefixOf (c :: rest) = true →
        matchLen r c rest ≠ none)
    (ch : Char) (hchv : ch ∈ v) (hchq : ch ∉ r.repl) (hchd : ch.isDigit = false)
    (hstartc : startCert v r.repl = true)
    (hmidc : midCert v r.repl = true)
    (hspanS : ∀ i v1 v2 c rest k out, S.drop i = v1 ++ c :: rest → v = v1 ++ v2 →
        v1 ≠ [] → v2 ≠ [] → matchLen r c rest = some (k, out) →
        v2.isPrefixOf out = true →
        (∀ j c' rest', j < v1.length → v1.drop j ++ (c :: rest) = c' :: rest' →
          matchLen r c' rest' = none) → False) :
    occurs v (subAux r S) = false := by
  refine pass_no_occ hv hocc ?_ ?_ ?_ hspanS S.length S le_rfl (List.suffix_refl S)
  · intro c rest k out _ hm
    obtain ⟨_, _, D, hout, hD⟩ := matchLen_some_shape hm
    rw [hout]
    exact occurs_false_of_missing_char hchv hchq hchd hD
  · intro c rest k out _ hm v1 v2 hsplit hv1 hv2
    obtain ⟨_, _, D, hout, hD⟩ := matchLen_some_shape hm
    rw [hout]
    exact hstart_of_cert hstartc hnd hD v1 v2 hsplit hv1 hv2
  · intro c rest k out _ hm v1 v2 hsplit hv2 hlen
    obtain ⟨_, _, D, hout, hD⟩ := matchLen_some_shape hm
    rw [hout] at hlen ⊢
    exact hmidR_of_cert hmidc v1 v2 hsplit hv2 hlen

/-- Span hypothesis for the two sentinel-restoring rules against
`hover:text-white`: the only split whose tail can start their replacement
is at the final `te`, which forces `hover:text-whi` verbatim before the
sentinel in the input — an occurrence of `W29L`, excluded by hypothesis. -/
lemma hspanS_H_sentinel {r : Rule} {S : List Char}
    (hheadT : r.patHead = 'T') (htail : r.patTail = "EXT_WHITE_TEMP".toList)
    (hcert : (List.range HL.length).all (fun n => decide (n = 0) || decide (n = 14) ||
      (if (HL.drop n).length ≤ r.repl.length then !((HL.drop n).isPrefixOf r.repl)
       else !(r.repl.isPrefixOf (HL.drop n)))) = true)
    (hW : occurs W29L S = false) :
    ∀ i v1 v2 c rest k out, S.drop i = v1 ++ c :: rest → HL = v1 ++ v2 →
      v1 ≠ [] → v2 ≠ [] → matchLen r c rest = some (k, out) →
      v2.isPrefixOf out = true →
      (∀ j c' rest', j < v1.length → v1.drop j ++ (c :: rest) = c' :: rest' →
        matchLen r c' rest' = none) → False := by
  intro i v1 v2 c rest k out hdrop hsplit hv1 hv2 hm hpre _
  obtain ⟨hc, hp, D, hout, hD⟩ := matchLen_some_shape hm
  obtain ⟨hv1t, hv2t⟩ := split_of_append hsplit
  have hnlt : v1.length < HL.length := by
    rw [hsplit, List.length_append]
    cases v2 with
    | nil => exact absurd rfl hv2
    | cons _ _ => simp
  by_cases h14 : v1.length = 14
  · have hcT : c = 'T' := by rw [hc, hheadT]
    rw [htail] at hp
    obtain ⟨tl, htl⟩ := prefixOf_exists.mp hp
    have hconc : HL.take 14 ++ ('T' :: "EXT_WHITE_TEMP".toList) = W29L := by decide
    have hW29pre : W29L.isPrefixOf (S.drop i) = true := by
      apply prefixOf_exists.mpr
      refine ⟨tl, ?_⟩
      rw [hdrop, hv1t, h14, hcT, htl, ← hconc]
      simp
    have hocc2 := occurs_of_prefixOf_suffix (List.drop_suffix i S) hW29pre
    rw [hW] at hocc2
    exact Bool.noConfusion hocc2
  · rw [hout] at hpre
    have hcert2 := List.all_eq_true.mp hcert v1.length (List.mem_range.mpr hnlt)
    rcases Bool.or_eq_true_iff.mp hcert2 with h1 | h2
    · rcases Bool.or_eq_true_iff.mp h1 with hz | hz14
      · have hz2 := of_decide_eq_true hz
        rw [List.length_eq_zero] at hz2
        exact hv1 hz2
      · exact h14 (of_decide_eq_true hz14)
    · rw [← hv2t] at h2
      by_cases hll : v2.length ≤ r.repl.length
      · rw [if_pos hll] at h2
        rw [isPrefixOf_append_of_le v2 r.repl D hll] at hpre
        rw [hpre] at h2
        simp at h2
      · rw [if_neg hll] at h2
        rw [isPrefixOf_append_of_gt v2 r.repl D (by omega)] at hpre
        have h3 := (Bool.and_eq_true_iff.mp hpre).1
        rw [h3] at h2
        simp at h2

/-- Span hypothesis for the protection rule `text-white(?!/)` against
`W29L`: the only split whose tail can start its replacement is the one
where the sentinel itself is the tail, which would put `hover:text-whi`
verbatim before a fresh `text-white` match — but then the scan would
already have matched `text-white` eight characters earlier, contradicting
the copied-position facts. -/
lemma hspanS_W29_rule2 {S : List Char} :
    ∀ i v1 v2 c rest k out, S.drop i = v1 ++ c :: rest → W29L = v1 ++ v2 →
      v1 ≠ [] → v2 ≠ [] → matchLen rule2 c rest = some (k, out) →
      v2.isPrefixOf out = true →
      (∀ j c' rest', j < v1.length → v1.drop j ++ (c :: rest) = c' :: rest' →
        matchLen rule2 c' rest' = none) → False := by
  intro i v1 v2 c rest k out hdrop hsplit hv1 hv2 hm hpre hnone
  obtain ⟨hc, hp, D, hout, hD⟩ := matchLen_some_shape hm
  obtain ⟨hv1t, hv2t⟩ := split_of_append hsplit
  have hnlt : v1.length < W29L.length := by
    rw [hsplit, List.length_append]
    cases v2 with
    | nil => exact absurd rfl hv2
    | cons _ _ => simp
  by_cases h14 : v1.length = 14
  · -- the junction: the scan copied `text-whi` right before a `text-white`
    -- match, yet `text-white` already matches at the copied position
    have hcT : c = 't' := by rw [hc]; rfl
    have hptail : rule2.patTail = "ext-white".toList := rfl
    rw [hptail] at hp
    obtain ⟨tl, htl⟩ := prefixOf_exists.mp hp
    have hrest' : ("ext-whi".toList ++ ('t' :: rest))
        = "ext-white".toList ++ ("xt-white".toList ++ tl) := by
      rw [htl]
      have hconc : "ext-whi".toList ++ ('t' :: "ext-white".toList)
          = "ext-white".toList ++ "xt-white".toList := by decide
      calc "ext-whi".toList ++ ('t' :: ("ext-white".toList ++ tl))
          = ("ext-whi".toList ++ ('t' :: "ext-white".toList)) ++ tl := by simp
        _ = ("ext-white".toList ++ "xt-white".toList) ++ tl := by rw [hconc]
        _ = "ext-white".toList ++ ("xt-white".toList ++ tl) := by simp
    have heq : v1.drop 6 ++ (c :: rest)
        = 't' :: ("ext-whi".toList ++ ('t' :: rest)) := by
      rw [hv1t, h14, hcT]
      rfl
    have hcontra := hnone 6 't' ("ext-whi".toList ++ ('t' :: rest))
      (by rw [h14]; omega) heq
    have h2p : rule2.patTail.isPrefixOf ("ext-whi".toList ++ ('t' :: rest)) = true := by
      rw [hptail]
      exact prefixOf_exists.mpr ⟨"xt-white".toList ++ tl, hrest'⟩
    rw [@matchLen_noSlash_eq rule2 't' ("ext-whi".toList ++ ('t' :: rest)) rfl
      (by decide) h2p] at hcontra
    have hdrop9 : ("ext-whi".toList ++ ('t' :: rest)).drop rule2.patTail.length
        = "xt-white".toList ++ tl := by
      rw [hrest']
      exact List.drop_left _ _
    rw [hdrop9] at hcontra
    have hhd : ("xt-white".toList ++ tl).head? = some 'x' := rfl
    rw [hhd] at hcontra
    split at hcontra
    · rename_i heq2
      exact absurd (Option.some.inj heq2) (by decide)
    · exact Option.noConfusion hcontra
  · -- every other split is refuted by computation
    rw [hout] at hpre
    have hcert : (List.range W29L.length).all (fun n => decide (n = 0) ||
        decide (n = 14) ||
        (if (W29L.drop n).length ≤ rule2.repl.length
         then !((W29L.drop n).isPrefixOf rule2.repl)
         else !(rule2.repl.isPrefixOf (W29L.drop n)))) = true := by decide
    have hcert2 := List.all_eq_true.mp hcert v1.length (List.mem_range.mpr hnlt)
    rcases Bool.or_eq_true_iff.mp hcert2 with h1 | h2
    · rcases Bool.or_eq_true_iff.mp h1 with hz | hz14
      · have hz2 := of_decide_eq_true hz
        rw [List.length_eq_zero] at hz2
        exact hv1 hz2
      · exact h14 (of_decide_eq_true hz14)
    · rw [← hv2t] at h2
      by_cases hll : v2.length ≤ rule2.repl.length
      · rw [if_pos hll] at h2
        rw [isPrefixOf_append_of_le v2 rule2.repl D hll] at hpre
        rw [hpre] at h2
        simp at h2
      · rw [if_neg hll] at h2
        rw [isPrefixOf_append_of_gt v2 rule2.repl D (by omega)] at hpre
        have h3 := (Bool.and_eq_true_iff.mp hpre).1
        rw [h3] at h2
        simp at h2

/-- The pass of `hover:text-white -> hover:text-black` leaves no occurrence
of `hover:text-white`, whatever the input: a copied occurrence would itself
have been a match, and no boundary with its replacement can rebuild one. -/
lemma rule5_kills_HL (S : List Char) : occurs HL (subAux rule5 S) = false := by
  refine pass_no_occ_certs S (by decide) (by decide) ?_ 'w' (by decide) (by decide)
    (by decide) (by decide) (by decide) ?_
  · intro c rest _ hpre
    obtain ⟨v', hv', hp'⟩ := head_of_prefixOf_cons (by decide) hpre
    injection hv' with h1 h2
    rw [@matchLen_plain_eq rule5 c rest rfl
      (by rw [← h1]; rfl) (by rw [← h2] at hp'; exact hp')]
    simp
  · intro i v1 v2 c rest k out _ hsplit hv1 hv2 hm hpre _
    obtain ⟨_, _, D, hout, hD⟩ := matchLen_some_shape hm
    rw [hout] at hpre
    rw [@hspan_of_cert HL rule5.repl (by decide) D v1 v2 hsplit hv1 hv2] at hpre
    exact Bool.noConfusion hpre

/-- A successful scan anywhere in `s` exhibits the rule's literal pattern
as a substring of `s`. -/
lemma occurs_of_hasMatch {r : Rule} {s : List Char} (h : hasMatch r s = true) :
    occurs (r.patHead :: r.patTail) s = true := by
  induction s with
  | nil => exact absurd h (by simp [hasMatch])
  | cons c rest ih =>
    have h' : ((matchLen r c rest).isSome || hasMatch r rest) = true := h
    rcases Bool.or_eq_true_iff.mp h' with h1 | h2
    · obtain ⟨p, hp⟩ := Option.isSome_iff_exists.mp h1
      obtain ⟨k, out⟩ := p
      obtain ⟨hc, hpre, _⟩ := matchLen_some_shape hp
      have hpre2 : (r.patHead :: r.patTail).isPrefixOf (c :: rest) = true := by
        rw [hc]
        simp only [List.isPrefixOf, beq_self_eq_true, Bool.true_and]
        exact hpre
      show ((r.patHead :: r.patTail).isPrefixOf (c :: rest) ||
        occurs (r.patHead :: r.patTail) rest) = true
      rw [hpre2]
      rfl
    · show ((r.patHead :: r.patTail).isPrefixOf (c :: rest) ||
        occurs (r.patHead :: r.patTail) rest) = true
      rw [ih h2]
      simp

/-- Peeling one rule off the front of the truncated pipeline. -/
lemma runFirst_step (n : Nat) (r : Rule)
    (hr : replacements.take (n + 1) = replacements.take n ++ [r]) (t : List Char) :
    runFirst (n + 1) t = subAux r (runFirst n t) := by
  show runRules (replacements.take (n + 1)) t = _
  rw [hr, runRules_split]
  rfl


lemma runRules_one (r : Rule) (s : List Char) : runRules [r] s = subAux r s := rfl

/-! ## The concrete side certificates, each checked by evaluation -/

lemma cert_s_t1 : startCert TWTL rule1.repl = true := by decide
lemma cert_m_t1 : midCert TWTL rule1.repl = true := by decide
lemma cert_p_t1 : spanCert TWTL rule1.repl = true := by decide
lemma cert_s_w2 : startCert W29L rule2.repl = true := by decide
lemma cert_m_w2 : midCert W29L rule2.repl = true := by decide
lemma cert_s_w3 : startCert W29L rule3.repl = true := by decide
lemma cert_m_w3 : midCert W29L rule3.repl = true := by decide
lemma cert_p_w3 : spanCert W29L rule3.repl = true := by decide
lemma cert_s_w4 : startCert W29L rule4.repl = true := by decide
lemma cert_m_w4 : midCert W29L rule4.repl = true := by decide
lemma cert_p_w4 : spanCert W29L rule4.repl = true := by decide
lemma cert_s_w5 : startCert W29L rule5.repl = true := by decide
lemma cert_m_w5 : midCert W29L rule5.repl = true := by decide
lemma cert_p_w5 : spanCert W29L rule5.repl = true := by decide
lemma cert_s_w6 : startCert W29L rule6.repl = true := by decide
lemma cert_m_w6 : midCert W29L rule6.repl = true := by decide
lemma cert_p_w6 : spanCert W29L rule6.repl = true := by decide
lemma cert_s_w7 : startCert W29L rule7.repl = true := by decide
lemma cert_m_w7 : midCert W29L rule7.repl = true := by decide
lemma cert_p_w7 : spanCert W29L rule7.repl = true := by decide
lemma cert_s_w8 : startCert W29L rule8.repl = true := by decide
lemma cert_m_w8 : midCert W29L rule8.repl = true := by decide
lemma cert_p_w8 : spanCert W29L rule8.repl = true := by decide
lemma cert_s_h6 : startCert HL rule6.repl = true := by decide
lemma cert_m_h6 : midCert HL rule6.repl = true := by decide
lemma cert_p_h6 : spanCert HL rule6.repl = true := by decide
lemma cert_s_h7 : startCert HL rule7.repl = true := by decide
lemma cert_m_h7 : midCert HL rule7.repl = true := by decide
lemma cert_p_h7 : spanCert HL rule7.repl = true := by decide
lemma cert_s_h8 : startCert HL rule8.repl = true := by decide
lemma cert_m_h8 : midCert HL rule8.repl = true := by decide
lemma cert_s_h9 : startCert HL rule9.repl = true := by decide
lemma cert_m_h9 : midCert HL rule9.repl = true := by decide
lemma cert_s_h10 : startCert HL rule10.repl = true := by decide
lemma cert_m_h10 : midCert HL rule10.repl = true := by decide
lemma cert_p_h10 : spanCert HL rule10.repl = true := by decide
lemma cert_s_h11 : startCert HL rule11.repl = true := by decide
lemma cert_m_h11 : midCert HL rule11.repl = true := by decide
lemma cert_p_h11 : spanCert HL rule11.repl = true := by decide

lemma cert_x_h8 : (List.range HL.length).all (fun n => decide (n = 0) ||
    decide (n = 14) ||
    (if (HL.drop n).length ≤ rule8.repl.length then !((HL.drop n).isPrefixOf rule8.repl)
     else !(rule8.repl.isPrefixOf (HL.drop n)))) = true := by decide

lemma cert_x_h9 : (List.range HL.length).all (fun n => decide (n = 0) ||
    decide (n = 14) ||
    (if (HL.drop n).length ≤ rule9.repl.length then !((HL.drop n).isPrefixOf rule9.repl)
     else !(rule9.repl.isPrefixOf (HL.drop n)))) = true := by decide

lemma nd_TWTL : TWTL.all (fun ch => !ch.isDigit) = true := by decide
lemma nd_W29L : W29L.all (fun ch => !ch.isDigit) = true := by decide
lemma nd_HL : HL.all (fun ch => !ch.isDigit) = true := by decide

lemma W29L_split_eq : W29L = "hover:text-whi".toList ++ TWTL := by decide
lemma rule12_pat_eq : (rule12.patHead :: rule12.patTail) = "text-white ".toList ++ HL := by
  decide

/-! ## The invariant chain along the first eleven rules -/

lemma chainT1 {t : List Char} (hT : occurs TWTL t = false) :
    occurs TWTL (runFirst 1 t) = false := by
  have e1 : runFirst 1 t = subAux rule1 (runFirst 0 t) :=
    runFirst_step 0 rule1 rfl t
  rw [e1]
  exact pass_no_occ_clean (runFirst 0 t) (by decide) nd_TWTL hT 'W'
    (by decide) (by decide) (by decide) cert_s_t1 cert_m_t1 cert_p_t1

lemma chainW2 {t : List Char} (hTWT1 : occurs TWTL (runFirst 1 t) = false) :
    occurs W29L (runFirst 2 t) = false := by
  have e2 : runFirst 2 t = subAux rule2 (runFirst 1 t) :=
    runFirst_step 1 rule2 rfl t
  rw [e2]
  refine pass_no_occ_certs (runFirst 1 t) (by decide) nd_W29L ?_ 'h'
    (by decide) (by decide) (by decide) cert_s_w2 cert_m_w2 hspanS_W29_rule2
  intro c rest hsuf hpre
  exfalso
  have hocc2 := occurs_of_prefixOf_suffix hsuf hpre
  rw [W29L_split_eq] at hocc2
  have h3 := occurs_append_right hocc2
  rw [hTWT1] at h3
  exact Bool.noConfusion h3

lemma chainW3 {t : List Char} (hW : occurs W29L (runFirst 2 t) = false) :
    occurs W29L (runFirst 3 t) = false := by
  rw [runFirst_step 2 rule3 rfl t]
  exact pass_no_occ_clean (runFirst 2 t) (by decide) nd_W29L hW 'P'
    (by decide) (by decide) (by decide) cert_s_w3 cert_m_w3 cert_p_w3

lemma chainW4 {t : List Char} (hW : occurs W29L (runFirst 3 t) = false) :
    occurs W29L (runFirst 4 t) = false := by
  rw [runFirst_step 3 rule4 rfl t]
  exact pass_no_occ_clean (runFirst 3 t) (by decide) nd_W29L hW 'P'
    (by decide) (by decide) (by decide) cert_s_w4 cert_m_w4 cert_p_w4

lemma chainW5 {t : List Char} (hW : occurs W29L (runFirst 4 t) = false) :
    occurs W29L (runFirst 5 t) = false := by
  rw [runFirst_step 4 rule5 rfl t]
  exact pass_no_occ_clean (runFirst 4 t) (by decide) nd_W29L hW 'P'
    (by decide) (by decide) (by decide) cert_s_w5 cert_m_w5 cert_p_w5

lemma chainW6 {t : List Char} (hW : occurs W29L (runFirst 5 t) = false) :
    occurs W29L (runFirst 6 t) = false := by
  rw [runFirst_step 5 rule6 rfl t]
  exact pass_no_occ_clean (runFirst 5 t) (by decide) nd_W29L hW 'P'
    (by decide) (by decide) (by decide) cert_s_w6 cert_m_w6 cert_p_w6

lemma chainW7 {t : List Char} (hW : occurs W29L (runFirst 6 t) = false) :
    occurs W29L (runFirst 7 t) = false := by
  rw [runFirst_step 6 rule7 rfl t]
  exact pass_no_occ_clean (runFirst 6 t) (by decide) nd_W29L hW 'P'
    (by decide) (by decide) (by decide) cert_s_w7 cert_m_w7 cert_p_w7

lemma chainW8 {t : List Char} (hW : occurs W29L (runFirst 7 t) = false) :
    occurs W29L (runFirst 8 t) = false := by
  rw [runFirst_step 7 rule8 rfl t]
  exact pass_no_occ_clean (runFirst 7 t) (by decide) nd_W29L hW 'P'
    (by decide) (by decide) (by decide) cert_s_w8 cert_m_w8 cert_p_w8

lemma chainH5 (t : List Char) : occurs HL (runFirst 5 t) = false := by
  rw [runFirst_step 4 rule5 rfl t]
  exact rule5_kills_HL (runFirst 4 t)

lemma chainH6 {t : List Char} (hH : occurs HL (runFirst 5 t) = false) :
    occurs HL (runFirst 6 t) = false := by
  rw [runFirst_step 5 rule6 rfl t]
  exact pass_no_occ_clean (runFirst 5 t) (by decide) nd_HL hH ':'
    (by decide) (by decide) (by decide) cert_s_h6 cert_m_h6 cert_p_h6

lemma chainH7 {t : List Char} (hH : occurs HL (runFirst 6 t) = false) :
    occurs HL (runFirst 7 t) = false := by
  rw [runFirst_step 6 rule7 rfl t]
  exact pass_no_occ_clean (runFirst 6 t) (by decide) nd_HL hH ':'
    (by decide) (by decide) (by decide) cert_s_h7 cert_m_h7 cert_p_h7

lemma chainH8 {t : List Char} (hH : occurs HL (runFirst 7 t) = false)
    (hW : occurs W29L (runFirst 7 t) = false) :
    occurs HL (runFirst 8 t) = false := by
  rw [runFirst_step 7 rule8 rfl t]
  exact pass_no_occ_certs (runFirst 7 t) (by decide) nd_HL
    (hocc_of_not_occurs hH) ':' (by decide) (by decide) (by decide) cert_s_h8
    cert_m_h8 (hspanS_H_sentinel rfl rfl cert_x_h8 hW)

lemma chainH9 {t : List Char} (hH : occurs HL (runFirst 8 t) = false)
    (hW : occurs W29L (runFirst 8 t) = false) :
    occurs HL (runFirst 9 t) = false := by
  rw [runFirst_step 8 rule9 rfl t]
  exact pass_no_occ_certs (runFirst 8 t) (by decide) nd_HL
    (hocc_of_not_occurs hH) ':' (by decide) (by decide) (by decide) cert_s_h9
    cert_m_h9 (hspanS_H_sentinel rfl rfl cert_x_h9 hW)

lemma chainH10 {t : List Char} (hH : occurs HL (runFirst 9 t) = false) :
    occurs HL (runFirst 10 t) = false := by
  rw [runFirst_step 9 rule10 rfl t]
  exact pass_no_occ_clean (runFirst 9 t) (by decide) nd_HL hH ':'
    (by decide) (by decide) (by decide) cert_s_h10 cert_m_h10 cert_p_h10

lemma chainH11 {t : List Char} (hH : occurs HL (runFirst 10 t) = false) :
    occurs HL (runFirst 11 t) = false := by
  rw [runFirst_step 10 rule11 rfl t]
  exact pass_no_occ_clean (runFirst 10 t) (by decide) nd_HL hH ':'
    (by decide) (by decide) (by decide) cert_s_h11 cert_m_h11 cert_p_h11

/-- C9: on an input containing neither sentinel substring, the final rule's
pattern `text-white hover:text-white` matches zero times in the text state
reached when that rule runs, and consequently `invert_colors` equals the
same pipeline with the final rule removed. -/
theorem final_rule_never_fires (t : String)
    (_hB : occurs ("BG_BLACK_TEMP".toList) t.toList = false)
    (hT : occurs ("TEXT_WHITE_TEMP".toList) t.toList = false) :
    hasMatch rule12 (runFirst 11 t.toList) = false ∧
    invert_colors t = String.mk (runFirst 11 t.toList) := by
  have hW7 : occurs W29L (runFirst 7 t.toList) = false :=
    chainW7 (chainW6 (chainW5 (chainW4 (chainW3 (chainW2 (chainT1 hT))))))
  have hH11 : occurs HL (runFirst 11 t.toList) = false :=
    chainH11 (chainH10 (chainH9 (chainH8 (chainH7 (chainH6 (chainH5 t.toList)))
      hW7) (chainW8 hW7)))
  have hnm : hasMatch rule12 (runFirst 11 t.toList) = false := by
    cases hb : hasMatch rule12 (runFirst 11 t.toList)
    · rfl
    exfalso
    have ho := occurs_of_hasMatch hb
    rw [rule12_pat_eq] at ho
    have h2 := occurs_append_right ho
    rw [hH11] at h2
    exact Bool.noConfusion h2
  refine ⟨hnm, ?_⟩
  show String.mk (runRules replacements t.toList) = _
  have hsplitR : replacements = replacements.take 11 ++ [rule12] := rfl
  have hrf : runFirst 11 t.toList = runRules (replacements.take 11) t.toList := rfl
  rw [hsplitR, runRules_split, runRules_one, ← hrf, subAux_of_not_hasMatch _ hnm]

/-- Witness for C9 on a sentinel-free document that even consists of the
final rule's literal pattern. -/
theorem final_rule_never_fires_witness :
    (occurs ("BG_BLACK_TEMP".toList) ("text-white hover:text-white").toList = false ∧
     occurs ("TEXT_WHITE_TEMP".toList) ("text-white hover:text-white").toList = false) ∧
    (hasMatch rule12 (runFirst 11 ("text-white hover:text-white").toList) = false ∧
     invert_colors "text-white hover:text-white"
       = String.mk (runFirst 11 ("text-white hover:text-white").toList)) :=
  ⟨⟨by decide, by decide⟩,
   final_rule_never_fires "text-white hover:text-white" (by decide) (by decide)⟩
